import Mathlib

/-!
Shallow embedding of `backend/sample.py` (pytest-playground): the
`Calculator` class, `divide_numbers`, `process_user_data`,
`calculate_fibonacci` and `validate_email`, together with theorems
settling the specification claims about them.

Python values relevant to the claims are modelled as strings and
(unbounded) integers; Python floating-point division is idealised as
exact division on rationals. Python runtime errors are modelled by an
explicit error type carried in `Except`.
-/

namespace Sample

/-- The Python exceptions raised by the code under verification. -/
inductive PyError where
  | typeError (msg : String)
  | keyError (msg : String)
  | valueError (msg : String)
  | indexError (msg : String)
  | attributeError (msg : String)
  deriving Repr, DecidableEq

/-- A Python value as far as the claims need: a string or an integer. -/
inductive PyVal where
  | str (s : String)
  | int (n : Int)
  deriving Repr, DecidableEq

/-- A Python object passed to `process_user_data`: a dict (modelled as an
insertion-ordered association list with distinct keys) or a non-dict value. -/
inductive PyObj where
  | dict (entries : List (String × PyVal))
  | str (s : String)
  | int (n : Int)
  deriving Repr, DecidableEq

/-! ## `divide_numbers` (sample.py lines 17-21)

Python's `/` on numbers is idealised as exact division on `ℚ`; the
`b == 0` test is exact equality, matching Python's numeric `==`. -/

def divide_numbers (a b : ℚ) : Except PyError ℚ :=
  if b = 0 then .error (.valueError "Cannot divide by zero")
  else .ok (a / b)

/-! ## `calculate_fibonacci` (sample.py lines 41-47)

The source recurses on an integer argument, re-checking `n < 0` on every
call; for `n ≥ 2` both recursive calls receive non-negative arguments, so
the guard fires only at the top level. The embedding keeps the integer
interface and the guards; termination is by the non-negative magnitude. -/

def calculate_fibonacci (n : Int) : Except PyError Int :=
  if n < 0 then .error (.valueError "n must be non-negative")
  else if n ≤ 1 then .ok n
  else do
    let a ← calculate_fibonacci (n - 1)
    let b ← calculate_fibonacci (n - 2)
    return a + b
termination_by n.toNat
decreasing_by
  · omega
  · omega

/-! ## `Calculator` (sample.py lines 57-77)

The class holds one mutable field, `history`, a Python list of strings.
Methods are state transformers. Python's f-string rendering of an
integer is `toString` on `Int`. -/

structure Calculator where
  history : List String
  deriving Repr, DecidableEq

/-- `Calculator()` — `__init__` sets `self.history = []`. -/
def Calculator.init : Calculator := ⟨[]⟩

/-- `Calculator.add`: returns `a + b` and appends `"{a} + {b} = {result}"`. -/
def Calculator.add (c : Calculator) (a b : Int) : Int × Calculator :=
  let result := a + b
  (result, ⟨c.history ++ [s!"{a} + {b} = {result}"]⟩)

/-- `Calculator.multiply`: returns `a * b` and appends `"{a} * {b} = {result}"`. -/
def Calculator.multiply (c : Calculator) (a b : Int) : Int × Calculator :=
  let result := a * b
  (result, ⟨c.history ++ [s!"{a} * {b} = {result}"]⟩)

/-- `Calculator.clear_history`: `self.history.clear()` empties the list in
place; the method returns `None` (unit). -/
def Calculator.clear_history (_c : Calculator) : Unit × Calculator :=
  ((), ⟨[]⟩)

/-- One observable call to the calculator, for reasoning about call
sequences. -/
inductive CalcOp where
  | add (a b : Int)
  | multiply (a b : Int)
  deriving Repr, DecidableEq

/-- The value a call returns. -/
def CalcOp.result : CalcOp → Int
  | .add a b => a + b
  | .multiply a b => a * b

/-- The log entry a call appends. -/
def CalcOp.entry : CalcOp → String
  | .add a b => s!"{a} + {b} = {a + b}"
  | .multiply a b => s!"{a} * {b} = {a * b}"

/-- Run one call on a calculator. -/
def CalcOp.run (op : CalcOp) (c : Calculator) : Int × Calculator :=
  match op with
  | .add a b => c.add a b
  | .multiply a b => c.multiply a b

/-- Run a sequence of calls, collecting the returned values. -/
def runOps (c : Calculator) : List CalcOp → List Int × Calculator
  | [] => ([], c)
  | op :: ops =>
    let (v, c') := op.run c
    let (vs, c'') := runOps c' ops
    (v :: vs, c'')

/-! ## Python string primitives used by `process_user_data`

`str.title()` in CPython walks the string tracking whether the previous
character was cased: a letter preceded by a non-letter (or the start) is
uppercased, a letter preceded by a letter is lowercased, and non-letter
characters pass through unchanged. Word boundaries are therefore any
non-letter character, not only whitespace ("john-doe" → "John-Doe").
Cased characters are modelled as ASCII letters, which covers every
string the repository exercises.

`str.split(sep)` with a one-character separator cuts at every occurrence
of the separator and keeps empty segments ("a@@b" → ["a", "", "b"]). -/

def titleGo : Bool → List Char → List Char
  | _, [] => []
  | prevCased, c :: cs =>
    let cased := c.isAlpha
    (if cased then (if prevCased then c.toLower else c.toUpper) else c)
      :: titleGo cased cs

/-- Python `s.title()`. -/
def pyTitle (s : String) : String := ⟨titleGo false s.data⟩

/-- Python `s.split(sep)` for a one-character separator, on char lists. -/
def splitChar (sep : Char) : List Char → List (List Char)
  | [] => [[]]
  | c :: cs =>
    let r := splitChar sep cs
    if c = sep then [] :: r
    else
      match r with
      | [] => [[c]]
      | h :: t => (c :: h) :: t

/-! ## Dict primitives

Python dicts have distinct keys; an association list where `lookup`
finds the (unique) binding models `in` and subscripting. -/

/-- Python `key in d`. -/
def hasKey (entries : List (String × PyVal)) (key : String) : Bool :=
  entries.any (fun e => e.1 == key)

/-- Python `d[key]`, defaulting arbitrarily when absent (the source only
subscripts keys it has just checked for membership). -/
def dictGet (entries : List (String × PyVal)) (key : String) : PyVal :=
  (entries.lookup key).getD (.int 0)

/-! ## `process_user_data` (sample.py lines 24-38)

The result dict literal evaluates its three values in source order
(`formatted_name`, then `email_domain`, then `age_group`), so the first
value expression to raise determines the error. `.title()` on a non-string
raises `AttributeError`; `.split('@')[1]` raises `IndexError` when the
split has fewer than two parts; `age >= 18` on a string raises
`TypeError`. -/

def process_user_data (user_data : PyObj) : Except PyError (List (String × PyVal)) :=
  match user_data with
  | .str _ => .error (.typeError "user_data must be a dictionary")
  | .int _ => .error (.typeError "user_data must be a dictionary")
  | .dict d =>
    if ¬ hasKey d "name" then .error (.keyError "Missing required field: name")
    else if ¬ hasKey d "email" then .error (.keyError "Missing required field: email")
    else if ¬ hasKey d "age" then .error (.keyError "Missing required field: age")
    else do
      let formattedName ←
        match dictGet d "name" with
        | .str s => Except.ok (pyTitle s)
        | .int _ => Except.error (.attributeError "'int' object has no attribute 'title'")
      let emailDomain ←
        match dictGet d "email" with
        | .str s =>
          match (splitChar '@' s.data).get? 1 with
          | some part => Except.ok (String.mk part)
          | none => Except.error (.indexError "list index out of range")
        | .int _ => Except.error (.attributeError "'int' object has no attribute 'split'")
      let ageGroup ←
        match dictGet d "age" with
        | .int a => Except.ok (if a ≥ 18 then "adult" else "minor")
        | .str _ =>
          Except.error (.typeError "'>=' not supported between instances of 'str' and 'int'")
      .ok [("formatted_name", .str formattedName),
           ("email_domain", .str emailDomain),
           ("age_group", .str ageGroup)]

/-! ## `validate_email` (sample.py lines 50-54)

The source matches `^[a-zA-Z0-9._%+-]+@[a-zA-Z0-9.-]+\.[a-zA-Z]{2,}$`
with `re.match` and converts the result to a boolean. `re.match`
anchors at the start (the `^` is redundant); Python's `$` (without
`re.MULTILINE`) matches at the end of the string or just before a single
trailing newline. The pattern is a plain concatenation of character
classes with `+`/`{2,}` repetition, embedded as a token list and a
backtracking matcher deciding whether some decomposition exists. -/

/-- One atom of the email pattern: exactly one character from a class, or
one-or-more characters from a class. `{2,}` is `one` followed by `plus`. -/
inductive Tok where
  | one (p : Char → Bool)
  | plus (p : Char → Bool)

/-- Backtracking matcher for a token sequence against the remaining
characters; an exhausted pattern ends with Python's `$` test. -/
def reMatch : List Tok → List Char → Bool
  | [], cs => decide (cs = [] ∨ cs = ['\n'])
  | _ :: _, [] => false
  | .one p :: ts, c :: cs => p c && reMatch ts cs
  | .plus p :: ts, c :: cs => p c && (reMatch ts cs || reMatch (.plus p :: ts) cs)

/-- `[a-zA-Z0-9._%+-]`. -/
def isLocalChar (c : Char) : Bool :=
  c.isAlpha || c.isDigit || c = '.' || c = '_' || c = '%' || c = '+' || c = '-'

/-- `[a-zA-Z0-9.-]`. -/
def isDomainChar (c : Char) : Bool :=
  c.isAlpha || c.isDigit || c = '.' || c = '-'

/-- The token sequence of `[a-zA-Z0-9._%+-]+@[a-zA-Z0-9.-]+\.[a-zA-Z]{2,}`. -/
def emailToks : List Tok :=
  [.plus isLocalChar, .one (· = '@'), .plus isDomainChar,
   .one (· = '.'), .one Char.isAlpha, .plus Char.isAlpha]

def validate_email (email : String) : Bool :=
  reMatch emailToks email.data

/-! ## Object-identity model for the aliasing claims

Python lists and dicts are heap objects reached through references;
`Calculator.get_history`'s `.copy()` and `process_user_data`'s result
literal both allocate. A heap is a list of cells indexed by allocation
order; allocation appends, mutation replaces one cell. -/

/-- Heap of Python list-of-string objects (the calculator histories and
the copies `get_history` hands out). -/
structure ListHeap where
  cells : List (List String)
  deriving Repr, DecidableEq

/-- Read the list object behind reference `r`. -/
def ListHeap.read (h : ListHeap) (r : Nat) : List String :=
  h.cells.getD r []

/-- Allocate a fresh list object holding `v`; returns its reference. -/
def ListHeap.alloc (h : ListHeap) (v : List String) : Nat × ListHeap :=
  (h.cells.length, ⟨h.cells ++ [v]⟩)

/-- In-place mutation of the list object behind `r` (e.g. `.append`,
`.remove`, `.clear` — any caller mutation is replacing the cell's
contents). -/
def ListHeap.write (h : ListHeap) (r : Nat) (v : List String) : ListHeap :=
  ⟨h.cells.set r v⟩

/-- A calculator as a heap object: it owns the reference to its history
list. -/
structure CalcObj where
  histRef : Nat
  deriving Repr, DecidableEq

/-- `Calculator.get_history`: `return self.history.copy()` — allocates a
fresh list with the same contents and returns the fresh reference. -/
def CalcObj.get_history (c : CalcObj) (h : ListHeap) : Nat × ListHeap :=
  h.alloc (h.read c.histRef)

/-- Heap of `PyObj` cells, for `process_user_data`'s argument and result. -/
structure ObjHeap where
  cells : List PyObj
  deriving Repr, DecidableEq

def ObjHeap.read (h : ObjHeap) (r : Nat) : PyObj :=
  h.cells.getD r (.int 0)

def ObjHeap.alloc (h : ObjHeap) (v : PyObj) : Nat × ObjHeap :=
  (h.cells.length, ⟨h.cells ++ [v]⟩)

/-- `process_user_data` called on the object behind reference `r`: the
body only reads `user_data` (`isinstance`, `in`, subscripting, and the
string methods on the values), and on success evaluates a dict literal,
which allocates a fresh dict object. -/
def process_user_data_ref (r : Nat) (h : ObjHeap) : Except PyError Nat × ObjHeap :=
  match process_user_data (h.read r) with
  | .error e => (.error e, h)
  | .ok d => let (r', h') := h.alloc (.dict d); (.ok r', h')

/-! ## Definitions taken from the specification's words

These deliberately follow the spec text, not the source, so that the
source's behaviour can be compared against them. -/

/-- From the spec's glossary ("Title case: capitalize the first letter of
each whitespace-separated word, lowercase the remainder"): word
boundaries are whitespace only. -/
def specTitleGo : Bool → List Char → List Char
  | _, [] => []
  | atWordStart, c :: cs =>
    if c.isWhitespace then c :: specTitleGo true cs
    else (if atWordStart then c.toUpper else c.toLower) :: specTitleGo false cs

/-- Title case as the spec describes it (whitespace-word semantics). -/
def specTitle (s : String) : String := ⟨specTitleGo true s.data⟩

/-- From the spec's words: "the substring strictly after the first `@`
character". -/
def afterFirstAt (s : String) : String :=
  ⟨(s.data.dropWhile (fun c => c != '@')).tail⟩

/-- From the spec's words: the entire string is one-or-more characters
from the local class, then `@`, then one-or-more characters from the
domain class, then a literal `.`, then two-or-more letters. -/
def specEmailPattern (s : String) : Prop :=
  ∃ l d t, s.data = l ++ '@' :: (d ++ '.' :: t) ∧
    l ≠ [] ∧ (∀ c ∈ l, isLocalChar c = true) ∧
    d ≠ [] ∧ (∀ c ∈ d, isDomainChar c = true) ∧
    2 ≤ t.length ∧ (∀ c ∈ t, c.isAlpha = true)

/-! ## Result projections -/

/-- The value under key `k` of a successful result, `none` on failure. -/
def getField (r : Except PyError (List (String × PyVal))) (k : String) : Option PyVal :=
  match r with
  | .ok d => d.lookup k
  | .error _ => none

/-- Whether a call returned normally. -/
def pySucceeds {α : Type} : Except PyError α → Bool
  | .ok _ => true
  | .error _ => false

/-! # Theorems -/

/-- Running a call sequence returns each call's value and appends each
call's log entry, in order. -/
theorem runOps_spec (ops : List CalcOp) : ∀ c : Calculator,
    (runOps c ops).1 = ops.map CalcOp.result ∧
    (runOps c ops).2.history = c.history ++ ops.map CalcOp.entry := by
  induction ops with
  | nil => intro c; simp [runOps]
  | cons op ops ih =>
    intro c
    cases op with
    | add a b =>
      have h := ih ⟨c.history ++ [s!"{a} + {b} = {a + b}"]⟩
      simp [runOps, CalcOp.run, Calculator.add, CalcOp.result, CalcOp.entry, h.1, h.2]
    | multiply a b =>
      have h := ih ⟨c.history ++ [s!"{a} * {b} = {a * b}"]⟩
      simp [runOps, CalcOp.run, Calculator.multiply, CalcOp.result, CalcOp.entry, h.1, h.2]

/-- C1: from a fresh calculator or right after `clear_history`, a sequence
of `add`/`multiply` calls leaves the history exactly
`"{a} + {b} = {a + b}"` / `"{a} * {b} = {a * b}"`, one entry per call in
call order; each call returns the sum resp. product and appends exactly
one entry, keeping the earlier entries unchanged. -/
theorem claim_C1_calculator_history (ops : List CalcOp) (c : Calculator) (a b : Int) :
    (runOps Calculator.init ops).1 = ops.map CalcOp.result ∧
    (runOps Calculator.init ops).2.history = ops.map CalcOp.entry ∧
    (runOps c.clear_history.2 ops).1 = ops.map CalcOp.result ∧
    (runOps c.clear_history.2 ops).2.history = ops.map CalcOp.entry ∧
    (c.add a b).1 = a + b ∧
    (c.add a b).2.history = c.history ++ [s!"{a} + {b} = {a + b}"] ∧
    (c.multiply a b).1 = a * b ∧
    (c.multiply a b).2.history = c.history ++ [s!"{a} * {b} = {a * b}"] := by
  have h1 := runOps_spec ops Calculator.init
  have h2 := runOps_spec ops c.clear_history.2
  refine ⟨h1.1, ?_, h2.1, ?_, rfl, rfl, rfl, rfl⟩
  · simpa [Calculator.init] using h1.2
  · simpa [Calculator.clear_history] using h2.2

/-- C6: `divide_numbers` fails with `ValueError "Cannot divide by zero"`
exactly when the divisor is zero, and otherwise returns the exact
quotient. -/
theorem claim_C6_divide (a b : ℚ) :
    (divide_numbers a b = .error (.valueError "Cannot divide by zero") ↔ b = 0) ∧
    (b ≠ 0 → divide_numbers a b = .ok (a / b)) := by
  constructor
  · constructor
    · intro h
      by_contra hb
      simp [divide_numbers, hb] at h
    · intro h
      simp [divide_numbers, h]
  · intro h
    simp [divide_numbers, h]

/-- Witness for C6 at `a = 1, b = 0` and `a = 6, b = 3`. -/
theorem claim_C6_divide_witness :
    divide_numbers 1 0 = .error (.valueError "Cannot divide by zero") ∧
    divide_numbers 6 3 = .ok 2 := by
  refine ⟨(claim_C6_divide 1 0).1.mpr rfl, ?_⟩
  have h := (claim_C6_divide 6 3).2 (by norm_num)
  have e : (6 : ℚ) / 3 = 2 := by norm_num
  rw [e] at h
  exact h

/-- C9: `clear_history` returns `None`, empties the history in place, and
is idempotent — a second call on the already-empty history is a no-op
leaving the history empty both times. -/
theorem claim_C9_clear_history (c : Calculator) :
    c.clear_history.1 = () ∧
    c.clear_history.2.history = [] ∧
    c.clear_history.2.clear_history.2 = c.clear_history.2 ∧
    c.clear_history.2.clear_history.2.history = [] :=
  ⟨rfl, rfl, rfl, rfl⟩

/-- On non-negative inputs the recursion computes the Fibonacci
sequence `fib(0) = 0, fib(1) = 1, fib(k) = fib(k-1) + fib(k-2)`. -/
theorem calculate_fibonacci_nat (m : ℕ) :
    calculate_fibonacci (m : Int) = .ok (Nat.fib m) := by
  induction m using Nat.strong_induction_on with
  | _ m ih =>
    match m with
    | 0 => unfold calculate_fibonacci; norm_num
    | 1 => unfold calculate_fibonacci; norm_num
    | (k + 2) =>
      unfold calculate_fibonacci
      have h0 : ¬ (((k + 2 : ℕ) : Int) < 0) := by push_cast; omega
      have h1 : ¬ (((k + 2 : ℕ) : Int) ≤ 1) := by push_cast; omega
      rw [if_neg h0, if_neg h1]
      have e1 : ((k + 2 : ℕ) : Int) - 1 = ((k + 1 : ℕ) : Int) := by push_cast; ring
      have e2 : ((k + 2 : ℕ) : Int) - 2 = ((k : ℕ) : Int) := by push_cast; ring
      rw [e1, e2, ih (k + 1) (by omega), ih k (by omega)]
      have efib : Nat.fib (k + 2) = Nat.fib k + Nat.fib (k + 1) := Nat.fib_add_two
      show Except.ok ((Nat.fib (k + 1) : Int) + (Nat.fib k : Int)) =
        Except.ok ((Nat.fib (k + 2) : ℕ) : Int)
      rw [efib]
      push_cast
      rw [Int.add_comm]

/-- C7: `calculate_fibonacci` returns the n-th Fibonacci number for
`n ≥ 0` and fails with `ValueError "n must be non-negative"` for
`n < 0`. -/
theorem claim_C7_fibonacci (n : Int) :
    (0 ≤ n → calculate_fibonacci n = .ok (Nat.fib n.toNat)) ∧
    (n < 0 → calculate_fibonacci n = .error (.valueError "n must be non-negative")) := by
  constructor
  · intro h
    have e : ((n.toNat : ℕ) : Int) = n := Int.toNat_of_nonneg h
    rw [← e]
    exact calculate_fibonacci_nat n.toNat
  · intro h
    unfold calculate_fibonacci
    rw [if_pos h]

/-- Witness for C7 at `n = 10` and `n = -1`. -/
theorem claim_C7_fibonacci_witness :
    calculate_fibonacci 10 = .ok 55 ∧
    calculate_fibonacci (-1) = .error (.valueError "n must be non-negative") := by
  constructor
  · have h := (claim_C7_fibonacci 10).1 (by norm_num)
    have e : Nat.fib ((10 : Int).toNat) = 55 := by decide
    rw [e] at h
    exact h
  · exact (claim_C7_fibonacci (-1)).2 (by norm_num)

/-- A key that `lookup` finds is present. -/
theorem hasKey_of_lookup {entries : List (String × PyVal)} {k : String} {v : PyVal}
    (h : entries.lookup k = some v) : hasKey entries k = true := by
  induction entries with
  | nil => simp [List.lookup] at h
  | cons e es ih =>
    obtain ⟨k', v'⟩ := e
    simp only [List.lookup] at h
    split at h
    · next heq =>
      have hkk : k = k' := eq_of_beq heq
      simp [hasKey, hkk]
    · next heq =>
      have := ih h
      simp only [hasKey, List.any_cons] at this ⊢
      rw [this, Bool.or_true]

/-- `dictGet` returns the binding `lookup` finds. -/
theorem dictGet_of_lookup {entries : List (String × PyVal)} {k : String} {v : PyVal}
    (h : entries.lookup k = some v) : dictGet entries k = v := by
  rw [dictGet, h]
  rfl

/-- C8: a non-dict argument is rejected with
`TypeError "user_data must be a dictionary"`, and a dict missing a
required key is rejected with `KeyError "Missing required field: {field}"`
naming the first missing key in the fixed order `name`, `email`, `age`. -/
theorem claim_C8_validation_errors (s : String) (n : Int) (d : List (String × PyVal)) :
    process_user_data (.str s) = .error (.typeError "user_data must be a dictionary") ∧
    process_user_data (.int n) = .error (.typeError "user_data must be a dictionary") ∧
    (hasKey d "name" = false →
      process_user_data (.dict d) = .error (.keyError "Missing required field: name")) ∧
    (hasKey d "name" = true → hasKey d "email" = false →
      process_user_data (.dict d) = .error (.keyError "Missing required field: email")) ∧
    (hasKey d "name" = true → hasKey d "email" = true → hasKey d "age" = false →
      process_user_data (.dict d) = .error (.keyError "Missing required field: age")) := by
  refine ⟨rfl, rfl, ?_, ?_, ?_⟩
  · intro h1
    simp [process_user_data, h1]
  · intro h1 h2
    simp [process_user_data, h1, h2]
  · intro h1 h2 h3
    simp [process_user_data, h1, h2, h3]

/-- Witness for C8: a string argument, and the spec's example record
`{"name": "j", "email": "j@x.com"}` whose first missing key is `age`. -/
theorem claim_C8_validation_errors_witness :
    process_user_data (.str "oops") = .error (.typeError "user_data must be a dictionary") ∧
    process_user_data (.dict [("name", PyVal.str "j"), ("email", PyVal.str "j@x.com")])
      = .error (.keyError "Missing required field: age") := by
  refine ⟨(claim_C8_validation_errors "oops" 0 []).1, ?_⟩
  exact (claim_C8_validation_errors "oops" 0
    [("name", PyVal.str "j"), ("email", PyVal.str "j@x.com")]).2.2.2.2
    (by decide) (by decide) (by decide)

/-- Splitting never yields an empty list of segments. -/
theorem splitChar_ne_nil (sep : Char) (cs : List Char) : splitChar sep cs ≠ [] := by
  induction cs with
  | nil => simp [splitChar]
  | cons c cs ih =>
    simp only [splitChar]
    by_cases hc : c = sep
    · simp [hc]
    · simp only [if_neg hc]
      cases hr : splitChar sep cs with
      | nil => exact absurd hr ih
      | cons h t => simp

/-- Without the separator, splitting returns the single whole segment. -/
theorem splitChar_not_mem (sep : Char) (cs : List Char) (h : sep ∉ cs) :
    splitChar sep cs = [cs] := by
  induction cs with
  | nil => rfl
  | cons c cs ih =>
    have hc : ¬ c = sep := fun he => h (he ▸ List.mem_cons_self c cs)
    have hcs : sep ∉ cs := fun hm => h (List.mem_cons_of_mem c hm)
    simp only [splitChar, if_neg hc, ih hcs]

/-- With the separator present, the split is the segment before the first
separator followed by the split of what comes strictly after it. -/
theorem splitChar_mem (sep : Char) (cs : List Char) (h : sep ∈ cs) :
    splitChar sep cs =
      cs.takeWhile (fun c => c != sep) ::
        splitChar sep ((cs.dropWhile (fun c => c != sep)).tail) := by
  induction cs with
  | nil => simp at h
  | cons c cs ih =>
    by_cases hc : c = sep
    · subst hc
      have hpred : (fun x => x != c) c = false := by simp
      simp only [splitChar, if_pos rfl, List.takeWhile_cons, List.dropWhile_cons, hpred]
      simp
    · have hmem : sep ∈ cs := by
        rcases List.mem_cons.mp h with he | hm
        · exact absurd he.symm hc
        · exact hm
      have hpred : (fun x => x != sep) c = true := by simp [hc]
      simp only [splitChar, if_neg hc, ih hmem, List.takeWhile_cons, List.dropWhile_cons, hpred]
      simp

/-- The head segment of a split is everything before the first separator. -/
theorem splitChar_head (sep : Char) (cs : List Char) :
    ∃ t, splitChar sep cs = cs.takeWhile (fun c => c != sep) :: t := by
  by_cases h : sep ∈ cs
  · exact ⟨_, splitChar_mem sep cs h⟩
  · refine ⟨[], ?_⟩
    rw [splitChar_not_mem sep cs h]
    have : cs.takeWhile (fun c => c != sep) = cs :=
      List.takeWhile_eq_self_iff.mpr (fun x hx => by
        have hxs : x ≠ sep := fun he => h (he ▸ hx)
        simp [hxs])
    rw [this]

/-- Element 1 of the split, when the separator occurs: the characters
strictly between the first separator and the next one (or the end). -/
theorem splitChar_get1_of_mem (sep : Char) (cs : List Char) (h : sep ∈ cs) :
    (splitChar sep cs).get? 1 =
      some (((cs.dropWhile (fun c => c != sep)).tail).takeWhile (fun c => c != sep)) := by
  rw [splitChar_mem sep cs h]
  obtain ⟨t, ht⟩ := splitChar_head sep ((cs.dropWhile (fun c => c != sep)).tail)
  rw [List.get?_cons_succ, ht]
  rfl

/-- Element 1 of the split does not exist when the separator is absent. -/
theorem splitChar_get1_of_not_mem (sep : Char) (cs : List Char) (h : sep ∉ cs) :
    (splitChar sep cs).get? 1 = none := by
  rw [splitChar_not_mem sep cs h]
  rfl

/-- Evaluation of `process_user_data` on a well-formed record whose email
contains an `@`. -/
theorem process_user_data_ok (entries : List (String × PyVal))
    (name email : String) (age : Int)
    (hn : entries.lookup "name" = some (.str name))
    (he : entries.lookup "email" = some (.str email))
    (ha : entries.lookup "age" = some (.int age))
    (hat : '@' ∈ email.data) :
    process_user_data (.dict entries) =
      .ok [("formatted_name", .str (pyTitle name)),
           ("email_domain", .str
             ⟨((email.data.dropWhile (fun c => c != '@')).tail).takeWhile (fun c => c != '@')⟩),
           ("age_group", .str (if age ≥ 18 then "adult" else "minor"))] := by
  have hkn := hasKey_of_lookup hn
  have hke := hasKey_of_lookup he
  have hka := hasKey_of_lookup ha
  simp only [process_user_data, hkn, hke, hka, dictGet_of_lookup hn,
    dictGet_of_lookup he, dictGet_of_lookup ha,
    splitChar_get1_of_mem '@' email.data hat]
  rfl

/-- Counterexample to C3: on `name = "john-doe"` the code's `str.title`
capitalizes after the hyphen (`"John-Doe"`), while the spec's
whitespace-word title case yields `"John-doe"`. -/
theorem claim_C3_counterexample :
    getField (process_user_data (.dict [("name", PyVal.str "john-doe"),
        ("email", PyVal.str "j@x.com"), ("age", PyVal.int 20)])) "formatted_name"
      = some (.str "John-Doe") ∧
    specTitle "john-doe" = "John-doe" ∧
    ("John-Doe" : String) ≠ "John-doe" :=
  ⟨by decide, by decide, by decide⟩

/-- C3 (amended): for a dict whose `name` is a string, whose `email` is a
string containing `@`, and whose `age` is an integer, the call succeeds;
`formatted_name` is `name` under Python `str.title` semantics (a letter
is capitalized exactly when not preceded by a letter — boundaries are all
non-letter characters, not only whitespace), and `age_group` is
`"adult"` when `age ≥ 18`, else `"minor"`. -/
theorem claim_C3_formatted_user (entries : List (String × PyVal))
    (name email : String) (age : Int)
    (hn : entries.lookup "name" = some (.str name))
    (he : entries.lookup "email" = some (.str email))
    (ha : entries.lookup "age" = some (.int age))
    (hat : '@' ∈ email.data) :
    getField (process_user_data (.dict entries)) "formatted_name"
      = some (.str (pyTitle name)) ∧
    getField (process_user_data (.dict entries)) "age_group"
      = some (.str (if age ≥ 18 then "adult" else "minor")) ∧
    pySucceeds (process_user_data (.dict entries)) = true := by
  rw [process_user_data_ok entries name email age hn he ha hat]
  exact ⟨rfl, rfl, rfl⟩

/-- Witness for C3 (amended) on
`{"name": "john doe", "email": "j@x.com", "age": 20}`. -/
theorem claim_C3_formatted_user_witness :
    getField (process_user_data (.dict [("name", PyVal.str "john doe"),
        ("email", PyVal.str "j@x.com"), ("age", PyVal.int 20)])) "formatted_name"
      = some (.str "John Doe") ∧
    getField (process_user_data (.dict [("name", PyVal.str "john doe"),
        ("email", PyVal.str "j@x.com"), ("age", PyVal.int 20)])) "age_group"
      = some (.str "adult") := by
  obtain ⟨h1, h2, _⟩ := claim_C3_formatted_user
    [("name", PyVal.str "john doe"), ("email", PyVal.str "j@x.com"), ("age", PyVal.int 20)]
    "john doe" "j@x.com" 20 (by decide) (by decide) (by decide) (by decide)
  constructor
  · rw [h1]; rfl
  · rw [h2]; rfl

/-- Counterexample to C4: with `email = "a@b@c"` the code stores `"b"`
(the second field of the `@`-split), not the substring `"b@c"` strictly
after the first `@`. -/
theorem claim_C4_counterexample :
    getField (process_user_data (.dict [("name", PyVal.str "a"),
        ("email", PyVal.str "a@b@c"), ("age", PyVal.int 20)])) "email_domain"
      = some (.str "b") ∧
    afterFirstAt "a@b@c" = "b@c" ∧
    ("b" : String) ≠ "b@c" :=
  ⟨by decide, by decide, by decide⟩

/-- C4 (amended): for a dict with string `name`, string `email` and
integer `age`: when `email` contains an `@`, `email_domain` is the part
of `email` strictly after the first `@` and strictly before the next `@`
(if any); when `email` contains no `@`, the call fails with
`IndexError "list index out of range"`. -/
theorem claim_C4_email_domain (entries : List (String × PyVal))
    (name email : String) (age : Int)
    (hn : entries.lookup "name" = some (.str name))
    (he : entries.lookup "email" = some (.str email))
    (ha : entries.lookup "age" = some (.int age)) :
    ('@' ∈ email.data →
      getField (process_user_data (.dict entries)) "email_domain"
        = some (.str ⟨(afterFirstAt email).data.takeWhile (fun c => c != '@')⟩)) ∧
    ('@' ∉ email.data →
      process_user_data (.dict entries) = .error (.indexError "list index out of range")) := by
  constructor
  · intro hat
    rw [process_user_data_ok entries name email age hn he ha hat]
    rfl
  · intro hnot
    have hkn := hasKey_of_lookup hn
    have hke := hasKey_of_lookup he
    have hka := hasKey_of_lookup ha
    simp only [process_user_data, hkn, hke, hka, dictGet_of_lookup hn,
      dictGet_of_lookup he, dictGet_of_lookup ha,
      splitChar_get1_of_not_mem '@' email.data hnot]
    rfl

/-- Witness for C4 (amended) on an email with one `@` and one without. -/
theorem claim_C4_email_domain_witness :
    getField (process_user_data (.dict [("name", PyVal.str "a"),
        ("email", PyVal.str "j@x.com"), ("age", PyVal.int 20)])) "email_domain"
      = some (.str "x.com") ∧
    process_user_data (.dict [("name", PyVal.str "a"),
        ("email", PyVal.str "invalid-email"), ("age", PyVal.int 20)])
      = .error (.indexError "list index out of range") := by
  constructor
  · have h := (claim_C4_email_domain
      [("name", PyVal.str "a"), ("email", PyVal.str "j@x.com"), ("age", PyVal.int 20)]
      "a" "j@x.com" 20 (by decide) (by decide) (by decide)).1 (by decide)
    rw [h]; rfl
  · exact (claim_C4_email_domain
      [("name", PyVal.str "a"), ("email", PyVal.str "invalid-email"), ("age", PyVal.int 20)]
      "a" "invalid-email" 20 (by decide) (by decide) (by decide)).2 (by decide)

/-- Reading a freshly appended cell gives its contents. -/
theorem getD_append_self {α : Type} (l : List α) (x d : α) :
    (l ++ [x]).getD l.length d = x := by
  induction l with
  | nil => rfl
  | cons a as ih => simp [ih]

/-- Writing one past the end of the original cells only rewrites the
appended cell. -/
theorem set_append_singleton {α : Type} (l : List α) (a v : α) :
    (l ++ [a]).set l.length v = l ++ [v] := by
  induction l with
  | nil => rfl
  | cons x xs ih => simp [List.set, ih]

/-- C2: `get_history` hands out a fresh copy of the history: the copy
initially equals the internal history; overwriting the copy with any
contents leaves the internal history unchanged; and a `get_history` call
made after that mutation still returns the original entries. -/
theorem claim_C2_get_history_copy (c : CalcObj) (h : ListHeap) (v : List String)
    (hv : c.histRef < h.cells.length) :
    ((c.get_history h).2.read (c.get_history h).1 = h.read c.histRef) ∧
    (((c.get_history h).2.write (c.get_history h).1 v).read c.histRef
      = h.read c.histRef) ∧
    ((c.get_history (((c.get_history h).2.write (c.get_history h).1 v))).2.read
        (c.get_history (((c.get_history h).2.write (c.get_history h).1 v))).1
      = h.read c.histRef) := by
  have h1 : (c.get_history h).1 = h.cells.length := rfl
  have hwrite : ((c.get_history h).2.write (c.get_history h).1 v).cells
      = h.cells ++ [v] := by
    show (h.cells ++ [h.read c.histRef]).set h.cells.length v = h.cells ++ [v]
    exact set_append_singleton h.cells (h.read c.histRef) v
  have hint : ((c.get_history h).2.write (c.get_history h).1 v).read c.histRef
      = h.read c.histRef := by
    show ((c.get_history h).2.write (c.get_history h).1 v).cells.getD c.histRef []
      = h.cells.getD c.histRef []
    rw [hwrite]
    exact List.getD_append h.cells [v] [] c.histRef hv
  refine ⟨?_, hint, ?_⟩
  · show (h.cells ++ [h.read c.histRef]).getD h.cells.length [] = h.read c.histRef
    exact getD_append_self h.cells (h.read c.histRef) []
  · show (((c.get_history h).2.write (c.get_history h).1 v).cells
        ++ [((c.get_history h).2.write (c.get_history h).1 v).read c.histRef]).getD
          ((c.get_history h).2.write (c.get_history h).1 v).cells.length []
      = h.read c.histRef
    rw [getD_append_self, hint]

/-- Witness for C2: a calculator whose history is `["3 + 4 = 7"]`, whose
returned copy is overwritten with `["junk"]`. -/
theorem claim_C2_get_history_copy_witness :
    ((CalcObj.mk 0).get_history (ListHeap.mk [["3 + 4 = 7"]])).2.read
        ((CalcObj.mk 0).get_history (ListHeap.mk [["3 + 4 = 7"]])).1
      = (ListHeap.mk [["3 + 4 = 7"]]).read 0 ∧
    (((CalcObj.mk 0).get_history (ListHeap.mk [["3 + 4 = 7"]])).2.write
        ((CalcObj.mk 0).get_history (ListHeap.mk [["3 + 4 = 7"]])).1 ["junk"]).read 0
      = (ListHeap.mk [["3 + 4 = 7"]]).read 0 ∧
    (((CalcObj.mk 0).get_history ((((CalcObj.mk 0).get_history
        (ListHeap.mk [["3 + 4 = 7"]])).2.write
          ((CalcObj.mk 0).get_history (ListHeap.mk [["3 + 4 = 7"]])).1 ["junk"]))).2.read
        ((CalcObj.mk 0).get_history ((((CalcObj.mk 0).get_history
          (ListHeap.mk [["3 + 4 = 7"]])).2.write
            ((CalcObj.mk 0).get_history (ListHeap.mk [["3 + 4 = 7"]])).1 ["junk"]))).1)
      = (ListHeap.mk [["3 + 4 = 7"]]).read 0 :=
  claim_C2_get_history_copy ⟨0⟩ ⟨[["3 + 4 = 7"]]⟩ ["junk"] (by decide)

/-- C10: `process_user_data` never mutates the object behind its
argument reference — whether it succeeds or fails, every pre-existing
heap cell is unchanged — and a successful result is a freshly allocated
dict, never the argument itself. -/
theorem claim_C10_no_input_mutation (r : Nat) (h : ObjHeap) :
    (∀ i, i < h.cells.length → (process_user_data_ref r h).2.read i = h.read i) ∧
    (∀ r', (process_user_data_ref r h).1 = .ok r' → r' = h.cells.length) ∧
    (r < h.cells.length → ∀ r', (process_user_data_ref r h).1 = .ok r' → r' ≠ r) := by
  cases hm : process_user_data (h.read r) with
  | error e =>
    refine ⟨fun i _ => ?_, fun r' hr' => ?_, fun _ r' hr' => ?_⟩
    · simp [process_user_data_ref, hm]
    · simp [process_user_data_ref, hm] at hr'
    · simp [process_user_data_ref, hm] at hr'
  | ok d =>
    have hheap : (process_user_data_ref r h).2.cells = h.cells ++ [.dict d] := by
      simp [process_user_data_ref, hm, ObjHeap.alloc]
    have hfst : (process_user_data_ref r h).1 = .ok h.cells.length := by
      simp [process_user_data_ref, hm, ObjHeap.alloc]
    refine ⟨fun i hi => ?_, fun r' hr' => ?_, fun hr r' hr' => ?_⟩
    · show (process_user_data_ref r h).2.cells.getD i (.int 0) = h.cells.getD i (.int 0)
      rw [hheap]
      exact List.getD_append h.cells [.dict d] (.int 0) i hi
    · rw [hfst] at hr'
      exact (Except.ok.inj hr').symm
    · rw [hfst] at hr'
      have : r' = h.cells.length := (Except.ok.inj hr').symm
      omega


/-- Witness for C10: a one-cell heap holding a complete user record. -/
theorem claim_C10_no_input_mutation_witness :
    (process_user_data_ref 0 (ObjHeap.mk [.dict [("name", PyVal.str "j"),
        ("email", PyVal.str "j@x.com"), ("age", PyVal.int 5)]])).2.read 0
      = (ObjHeap.mk [.dict [("name", PyVal.str "j"),
          ("email", PyVal.str "j@x.com"), ("age", PyVal.int 5)]]).read 0 ∧
    (1 : Nat) ≠ 0 := by
  have h := claim_C10_no_input_mutation 0 (ObjHeap.mk [.dict [("name", PyVal.str "j"),
    ("email", PyVal.str "j@x.com"), ("age", PyVal.int 5)]])
  exact ⟨h.1 0 (by decide), h.2.2 (by decide) 1 (by rfl)⟩

/-- An exhausted pattern accepts exactly Python's `$` positions: the end
of the string or just before a single trailing newline. -/
theorem reMatch_nil_eq (cs : List Char) :
    reMatch [] cs = true ↔ (cs = [] ∨ cs = ['\n']) := by
  simp [reMatch]

/-- A `one` token consumes exactly one character of its class. -/
theorem reMatch_one_iff (p : Char → Bool) (ts : List Tok) (cs : List Char) :
    reMatch (.one p :: ts) cs = true ↔
      ∃ c cs', cs = c :: cs' ∧ p c = true ∧ reMatch ts cs' = true := by
  cases cs with
  | nil =>
    constructor
    · intro hm; exact absurd hm (by simp [reMatch])
    · rintro ⟨c, cs', heq, _, _⟩; exact absurd heq (by simp)
  | cons c cs =>
    constructor
    · intro hm
      obtain ⟨h1, h2⟩ := Bool.and_eq_true_iff.mp hm
      exact ⟨c, cs, rfl, h1, h2⟩
    · rintro ⟨c', cs', heq, hp, hm⟩
      injection heq with e1 e2
      subst e1; subst e2
      exact Bool.and_eq_true_iff.mpr ⟨hp, hm⟩

/-- A `plus` token consumes a nonempty block of its class. -/
theorem reMatch_plus_iff (p : Char → Bool) (ts : List Tok) :
    ∀ cs, reMatch (.plus p :: ts) cs = true ↔
      ∃ a b, cs = a ++ b ∧ a ≠ [] ∧ (∀ c ∈ a, p c = true) ∧
        reMatch ts b = true := by
  intro cs
  induction cs with
  | nil =>
    constructor
    · intro hm; exact absurd hm (by simp [reMatch])
    · rintro ⟨a, b, heq, hne, _, _⟩
      cases a with
      | nil => exact absurd rfl hne
      | cons x xs => exact absurd heq (by simp)
  | cons c cs ih =>
    constructor
    · intro hm
      obtain ⟨hp, hor⟩ := Bool.and_eq_true_iff.mp hm
      rcases Bool.or_eq_true_iff.mp hor with h1 | h2
      · refine ⟨[c], cs, rfl, by simp, ?_, h1⟩
        intro x hx
        rw [List.mem_singleton] at hx
        subst hx; exact hp
      · obtain ⟨a, b, heq, _, hall, hm2⟩ := ih.mp h2
        refine ⟨c :: a, b, by rw [heq]; rfl, by simp, ?_, hm2⟩
        intro x hx
        rcases List.mem_cons.mp hx with he | hx'
        · subst he; exact hp
        · exact hall x hx'
    · rintro ⟨a, b, heq, hne, hall, hm⟩
      cases a with
      | nil => exact absurd rfl hne
      | cons x xs =>
        rw [List.cons_append] at heq
        injection heq with e1 e2
        subst e1; subst e2
        have hp : p c = true := hall c (List.mem_cons_self c xs)
        show (p c && (reMatch ts (xs ++ b) || reMatch (.plus p :: ts) (xs ++ b))) = true
        rw [hp, Bool.true_and]
        apply Bool.or_eq_true_iff.mpr
        cases xs with
        | nil =>
          left
          rw [List.nil_append]
          exact hm
        | cons y ys =>
          right
          refine ih.mpr ⟨y :: ys, b, rfl, by simp, ?_, hm⟩
          intro x hx
          exact hall x (List.mem_cons_of_mem c hx)

/-- The exact language of the source's regex under `re.match`: some
decomposition into local part, `@`, domain part, `.`, a two-or-more
letter TLD, and a remainder that Python's `$` accepts (empty or a single
newline). -/
theorem validate_email_iff (email : String) :
    validate_email email = true ↔
      ∃ l d t rest, email.data = l ++ '@' :: (d ++ '.' :: (t ++ rest)) ∧
        l ≠ [] ∧ (∀ c ∈ l, isLocalChar c = true) ∧
        d ≠ [] ∧ (∀ c ∈ d, isDomainChar c = true) ∧
        2 ≤ t.length ∧ (∀ c ∈ t, c.isAlpha = true) ∧
        (rest = [] ∨ rest = ['\n']) := by
  rw [validate_email, emailToks]
  constructor
  · intro hm
    obtain ⟨l, r1, he1, hlne, hlall, hm1⟩ := (reMatch_plus_iff _ _ _).mp hm
    obtain ⟨c1, r2, he2, hc1, hm2⟩ := (reMatch_one_iff _ _ _).mp hm1
    have hc1e : c1 = '@' := of_decide_eq_true hc1
    obtain ⟨d, r3, he3, hdne, hdall, hm3⟩ := (reMatch_plus_iff _ _ _).mp hm2
    obtain ⟨c2, r4, he4, hc2, hm4⟩ := (reMatch_one_iff _ _ _).mp hm3
    have hc2e : c2 = '.' := of_decide_eq_true hc2
    obtain ⟨c3, r5, he5, hc3, hm5⟩ := (reMatch_one_iff _ _ _).mp hm4
    obtain ⟨t', rest, he6, htne, htall, hm6⟩ := (reMatch_plus_iff _ _ _).mp hm5
    have hrest := (reMatch_nil_eq rest).mp hm6
    refine ⟨l, d, c3 :: t', rest, ?_, hlne, hlall, hdne, hdall, ?_, ?_, hrest⟩
    · rw [he1, he2, he3, he4, he5, he6, hc1e, hc2e]
      rfl
    · cases t' with
      | nil => exact absurd rfl htne
      | cons _ _ => simp [List.length_cons]
    · intro x hx
      rcases List.mem_cons.mp hx with he | hx'
      · subst he; exact hc3
      · exact htall x hx'
  · rintro ⟨l, d, t, rest, heq, hlne, hlall, hdne, hdall, htlen, htall, hrest⟩
    obtain ⟨c3, t', rfl⟩ : ∃ c3 t', t = c3 :: t' := by
      cases t with
      | nil => exact absurd htlen (by simp)
      | cons a b => exact ⟨a, b, rfl⟩
    have ht'ne : t' ≠ [] := by
      intro h0
      rw [h0] at htlen
      exact absurd htlen (by simp)
    rw [heq]
    apply (reMatch_plus_iff _ _ _).mpr
    refine ⟨l, '@' :: (d ++ '.' :: (c3 :: t' ++ rest)), rfl, hlne, hlall, ?_⟩
    apply (reMatch_one_iff _ _ _).mpr
    refine ⟨'@', _, rfl, by decide, ?_⟩
    apply (reMatch_plus_iff _ _ _).mpr
    refine ⟨d, '.' :: (c3 :: t' ++ rest), rfl, hdne, hdall, ?_⟩
    apply (reMatch_one_iff _ _ _).mpr
    refine ⟨'.', _, rfl, by decide, ?_⟩
    apply (reMatch_one_iff _ _ _).mpr
    refine ⟨c3, t' ++ rest, rfl, htall c3 (List.mem_cons_self c3 t'), ?_⟩
    apply (reMatch_plus_iff _ _ _).mpr
    refine ⟨t', rest, rfl, ht'ne, ?_, (reMatch_nil_eq rest).mpr hrest⟩
    intro x hx
    exact htall x (List.mem_cons_of_mem c3 hx)

/-- A string of the spec's email shape ends in a letter. -/
theorem specEmailPattern_last_alpha (s : String) (h : specEmailPattern s) :
    ∃ c, s.data.getLast? = some c ∧ c.isAlpha = true := by
  obtain ⟨l, d, t, heq, _, _, _, _, htlen, htall⟩ := h
  have htne : t ≠ [] := by
    intro h0
    rw [h0] at htlen
    exact absurd htlen (by simp)
  refine ⟨t.getLast htne, ?_, htall _ (List.getLast_mem htne)⟩
  rw [heq]
  have e : l ++ '@' :: (d ++ '.' :: t) = (l ++ '@' :: (d ++ ['.'])) ++ t := by
    simp
  rw [e, List.getLast?_append_of_ne_nil _ htne,
    List.getLast?_eq_getLast_of_ne_nil htne]

/-- Counterexample to C5: Python's `$` also matches just before a final
newline, so `validate_email` accepts `"test@example.com\n"`, which is
not of the claim's fully-anchored shape. -/
theorem claim_C5_counterexample :
    validate_email "test@example.com\n" = true ∧
    ¬ specEmailPattern "test@example.com\n" := by
  refine ⟨by decide, ?_⟩
  intro h
  obtain ⟨c, hc, hal⟩ := specEmailPattern_last_alpha _ h
  have e : ("test@example.com\n" : String).data.getLast? = some '\n' := by decide
  rw [e] at hc
  injection hc with hc'
  rw [← hc'] at hal
  exact absurd hal (by decide)

/-- C5 (amended): `validate_email` returns true iff the whole string —
or the whole string minus a single trailing newline, which Python's `$`
also accepts — is one-or-more characters from
`{letters, digits, ., _, %, +, -}`, then `@`, then one-or-more from
`{letters, digits, ., -}`, then a literal `.`, then two-or-more letters;
in particular the spec's three examples behave as stated. -/
theorem claim_C5_validate_email (email : String) :
    (validate_email email = true ↔
      (specEmailPattern email ∨
        ∃ cs, email.data = cs ++ ['\n'] ∧ specEmailPattern ⟨cs⟩)) ∧
    validate_email "test@example.com" = true ∧
    validate_email "invalid-email" = false ∧
    validate_email "a@b.c" = false := by
  refine ⟨?_, by decide, by decide, by decide⟩
  rw [validate_email_iff]
  constructor
  · rintro ⟨l, d, t, rest, heq, h2, h3, h4, h5, h6, h7, hrest⟩
    rcases hrest with rfl | rfl
    · left
      refine ⟨l, d, t, ?_, h2, h3, h4, h5, h6, h7⟩
      rw [heq]
      simp
    · right
      refine ⟨l ++ '@' :: (d ++ '.' :: t), ?_, ⟨l, d, t, rfl, h2, h3, h4, h5, h6, h7⟩⟩
      rw [heq]
      simp
  · rintro (⟨l, d, t, heq, h2, h3, h4, h5, h6, h7⟩ |
      ⟨cs, heq, ⟨l, d, t, heq2, h2, h3, h4, h5, h6, h7⟩⟩)
    · exact ⟨l, d, t, [], by rw [heq]; simp, h2, h3, h4, h5, h6, h7, Or.inl rfl⟩
    · refine ⟨l, d, t, ['\n'], ?_, h2, h3, h4, h5, h6, h7, Or.inr rfl⟩
      rw [heq]
      have e : cs = l ++ '@' :: (d ++ '.' :: t) := heq2
      rw [e]
      simp

end Sample
